import Mathlib

/-!
Verification development for the sgd-colca-backend database lifecycle
orchestrator.  The repository ships a `Makefile` command surface (embedded
below from `src/Makefile`) that drives a Python management script
(`manage.py`); the management script itself is not part of the sources
available here, so the orchestrator components it implements (Reset Guard,
Status Reporter, Dump/Restore Manager, Migration Coordinator, Seed
Orchestrator) are modelled from the specification, as marked on each
definition.
-/

namespace SgdColca

/-! ## Makefile embedding (from `src/Makefile`) -/

/-- A recipe command of the Makefile: an echo line, an invocation of the
management script (`python manage.py <args>`), a pip invocation, or a raw
shell line. -/
inductive Cmd where
  | echo (msg : String)
  | manage (args : List String)
  | pip (args : List String)
  | shell (line : String)
deriving DecidableEq

/-- Prerequisites of each Makefile target, in the declared (serial) order,
embedded from `src/Makefile`. -/
def targetPrereqs : String → List String
  | "dev" => ["install", "init", "seed"]
  | "quick-reset" => ["reset-force", "init", "seed"]
  | "setup-prod" => ["install", "migrate"]
  | _ => []

/-- Recipes of the variable-free Makefile targets, embedded from
`src/Makefile` (the `migration` and `restore` targets depend on the MSG
and FILE variables and are modelled separately). -/
def targetRecipe : String → List Cmd
  | "init" => [.echo "Inicializando base de datos...", .manage ["init-db"]]
  | "seed" => [.echo "Cargando datos de prueba basicos...",
               .manage ["seed-data", "--scenario", "basico"]]
  | "seed-full" => [.echo "Cargando datos de prueba completos...",
                    .manage ["seed-data", "--extended-org", "--scenario", "completo"]]
  | "status" => [.echo "Estado del sistema:", .manage ["status"]]
  | "status-detail" => [.echo "Estado detallado del sistema:",
                        .manage ["status", "--detailed"]]
  | "migrate" => [.echo "Aplicando migraciones...", .manage ["migrate", "upgrade"]]
  | "migrate-current" => [.echo "Revision actual:", .manage ["migrate", "current"]]
  | "migrate-history" => [.echo "Historial de migraciones:", .manage ["migrate", "history"]]
  | "backup" => [.echo "Creando respaldo comprimido...", .manage ["backup", "--compress"]]
  | "backup-schema" => [.echo "Creando respaldo solo esquema...",
                        .manage ["backup", "--no-data", "--compress"]]
  | "reset" => [.echo "PELIGRO: Esto eliminara todos los datos", .manage ["reset-db"]]
  | "reset-force" => [.echo "RESET FORZADO - Sin confirmacion",
                      .manage ["reset-db", "--force"]]
  | "reset-reinit" => [.echo "Reset y reinicializacion automatica",
                       .manage ["reset-db", "--force", "--reinit"]]
  | "install" => [.echo "Instalando dependencias...", .pip ["install", "-r", "requirements.txt"]]
  | "dev" => [.echo "Entorno de desarrollo configurado",
              .echo "Usuario admin: admin / admin123"]
  | "clean" => [.echo "Limpiando archivos temporales...",
                .shell "find . -type f -name *.pyc -delete",
                .shell "find . -type d -name __pycache__ -delete",
                .shell "find . -type f -name *.log -delete"]
  | "quick-reset" => [.echo "Reset rapido completado"]
  | "setup-prod" => [.echo "Configuracion de produccion lista",
                     .echo "CAMBIAR CONTRASEÑAS POR DEFECTO"]
  | _ => []

/-- Serial (non-parallel) make semantics: a target runs its prerequisites
left to right, then its own recipe.  Fuel bounds the (acyclic) recursion;
the repository's dependency graph has depth 1. -/
def expandTarget : Nat → String → List Cmd
  | 0, _ => []
  | fuel + 1, t => ((targetPrereqs t).map (expandTarget fuel)).flatten ++ targetRecipe t

/-- The `migration` target from `src/Makefile` lines 65-71: the recipe first
runs a shell conditional that exits 1 when the MSG variable is empty (make
treats an unset variable as empty), which aborts the target; otherwise it
echoes and invokes `python manage.py migrate revision -m "$(MSG)"`.  Returns
the commands that run plus the resulting make exit code, where
`manageExit` gives the exit code of the management-script invocation. -/
def migrationTarget (msg : String) (manageExit : Nat) : List Cmd × Nat :=
  if msg = "" then
    ([.shell "echo Error: Se requiere mensaje; exit 1"], 1)
  else
    ([.echo ("Creando nueva migracion: " ++ msg),
      .manage ["migrate", "revision", "-m", msg]], manageExit)

/-! ## Schema store state -/

/-- Observable durable state of the schema store: the migration revision
recorded in the tracking table and the per-entity row counts. -/
structure Store where
  currentRev : Option Nat
  rowCounts : List (String × Nat)
deriving DecidableEq

/-! ## Reset Guard (spec-modelled) -/

/-- States of the Reset Guard state machine (spec section 4.5). -/
inductive ResetState where
  | idle
  | awaitingConfirmation
  | confirmed
  | wiping
  | reinitializing
  | done
  | aborted
deriving DecidableEq

/-- Observable actions of a Reset Guard run: prompting the operator,
the destructive structural drop, re-running schema initialization, and
running the default seed scenario. -/
inductive ResetAction where
  | promptOperator
  | dropStructural
  | reinitSchema
  | runDefaultSeed
deriving DecidableEq

/-- The confirmation-source abstraction of spec section 9: a destructive
reset is confirmed either interactively or by the force flag; anything
else is a denial. -/
inductive ConfirmationSource where
  | interactive
  | forceFlag
  | denied
deriving DecidableEq

/-- Modelled from the spec: the single confirmation source of a reset
invocation.  A force flag present at invocation confirms without
prompting; otherwise only an affirmative interactive response confirms;
any other response (including no response) is a denial. -/
def confirmationSource (force : Bool) (resp : Option Bool) : ConfirmationSource :=
  if force then .forceFlag
  else if resp = some true then .interactive
  else .denied

/-- Outcome of one Reset Guard run: the states visited in order, the
actions performed (tagged with the state performing them), the resulting
store state, and the process exit code. -/
structure ResetOutcome where
  trace : List ResetState
  actions : List (ResetState × ResetAction)
  finalStore : Store
  exitCode : Nat
deriving DecidableEq

/-- Modelled from the spec: one run of the Reset Guard state machine of
spec section 4.5 (`manage.py reset-db` is not under `src/`).  Inputs:
the force and reinit flags, the operator's interactive response (consulted
only without force), whether the wipe succeeds, the head revision and the
default seed scenario's row counts used by reinitialization, and the store
state at invocation.  A denied confirmation aborts cleanly with no action
on the store; a confirmed run drops the structural objects in `wiping`,
optionally reinitializes and seeds, and a wipe failure is fatal with a
non-zero exit. -/
def resetRun (force reinit : Bool) (resp : Option Bool) (wipeOk : Bool)
    (headRev : Nat) (seedCounts : List (String × Nat)) (st : Store) : ResetOutcome :=
  if confirmationSource force resp = .denied then
    { trace := [.idle, .awaitingConfirmation, .aborted]
      actions := [(.awaitingConfirmation, .promptOperator)]
      finalStore := st
      exitCode := 0 }
  else
    let promptActs : List (ResetState × ResetAction) :=
      if force then [] else [(.awaitingConfirmation, .promptOperator)]
    if wipeOk then
      if reinit then
        { trace := [.idle, .awaitingConfirmation, .confirmed, .wiping, .reinitializing, .done]
          actions := promptActs ++
            [(.wiping, .dropStructural), (.reinitializing, .reinitSchema),
             (.reinitializing, .runDefaultSeed)]
          finalStore := ⟨some headRev, seedCounts⟩
          exitCode := 0 }
      else
        { trace := [.idle, .awaitingConfirmation, .confirmed, .wiping, .done]
          actions := promptActs ++ [(.wiping, .dropStructural)]
          finalStore := ⟨none, []⟩
          exitCode := 0 }
    else
      { trace := [.idle, .awaitingConfirmation, .confirmed, .wiping]
        actions := promptActs ++ [(.wiping, .dropStructural)]
        finalStore := ⟨none, []⟩
        exitCode := 1 }

/-! ## Status Reporter (spec-modelled) -/

/-- Failure of an individual query against the schema store. -/
inductive DbErr where
  | unreachable
  | queryFailed
deriving DecidableEq

/-- A status report snapshot (spec section 3): connectivity, current and
head revision, pending-migration count, and per-entity row counts in
detailed mode, where `none` renders as "unavailable". -/
structure StatusReport where
  connected : Bool
  currentRev : Option String
  headRev : Option String
  pendingCount : Option Nat
  rowCounts : List (String × Option Nat)
deriving DecidableEq

/-- The observable behaviour of the schema store towards the status
reporter: the connectivity probe result and the outcome of each
individual query the reporter may issue. -/
structure StoreProbe where
  reachable : Bool
  currentRevQ : Except DbErr (Option String)
  headRevQ : Except DbErr String
  pendingQ : Except DbErr Nat
  countQs : List (String × Except DbErr Nat)

/-- Degrades an individual query failure to an absent field instead of
propagating it. -/
def degrade {α : Type} : Except DbErr α → Option α
  | .ok a => some a
  | .error _ => none

/-- The report returned for an unreachable store: `connected = false` and
every other field empty. -/
def emptyReport : StatusReport :=
  { connected := false, currentRev := none, headRev := none,
    pendingCount := none, rowCounts := [] }

/-- Modelled from the spec: `report(detailed)` of the Status Reporter
(spec section 4.6; the `manage.py status` handler is not under `src/`).
The connectivity probe runs first; an unreachable store yields the empty
report rather than an error; otherwise each field is filled from its own
query, individually degraded on failure, with per-entity row counts only
in detailed mode. -/
def report (detailed : Bool) (s : StoreProbe) : Except DbErr StatusReport :=
  if s.reachable then
    .ok { connected := true
          currentRev := (degrade s.currentRevQ).join
          headRev := degrade s.headRevQ
          pendingCount := degrade s.pendingQ
          rowCounts :=
            if detailed then s.countQs.map (fun p => (p.1, degrade p.2)) else [] }
  else
    .ok emptyReport

/-- Process exit code of the `status` command: 0 when the report is
produced, non-zero only if `report` were to fail. -/
def statusExit (detailed : Bool) (s : StoreProbe) : Nat :=
  match report detailed s with
  | .ok _ => 0
  | .error _ => 1

/-! ## Dump/Restore Manager, file layer (spec-modelled) -/

/-- A flat filesystem: association list from path to file content, most
recent write first. -/
def FS : Type := List (String × List Nat)

/-- Writing a file shadows any previous content at that path. -/
def fsWrite (fs : FS) (p : String) (c : List Nat) : FS := (p, c) :: fs

/-- Content at a path, if any. -/
def fsLookup (fs : FS) (p : String) : Option (List Nat) :=
  (List.find? (fun e => decide (e.1 = p)) fs).map (fun e => e.2)

/-- Removes every entry at a path. -/
def fsRemove (fs : FS) (p : String) : FS :=
  List.filter (fun e => decide (e.1 ≠ p)) fs

/-- Atomic rename: moves the content at `src` to `dst`; no-op if `src`
does not exist. -/
def fsRename (fs : FS) (src dst : String) : FS :=
  match fsLookup fs src with
  | none => fs
  | some c => fsWrite (fsRemove fs src) dst c

/-- Failure of the backup operation. -/
inductive BackupErr where
  | dumpFailed
deriving DecidableEq

/-- Outcome of invoking the external dump utility: either the complete
dump content, or a failure that has produced only a truncated byte run. -/
inductive DumpOutcome where
  | complete (content : List Nat)
  | failed (truncated : List Nat)
deriving DecidableEq

/-- Result of a backup invocation: the filesystem afterwards and either
the final artifact path or a `BackupErr`. -/
structure BackupFsResult where
  fs : FS
  result : Except BackupErr String

/-- Filename of a backup artifact, encoding the generation timestamp and
the data-inclusion and compression flags (spec section 3). -/
def artifactPath (ts : Nat) (includeData compress : Bool) : String :=
  "backup_" ++ toString ts ++ (if includeData then "" else "_schema")
    ++ ".sql" ++ (if compress then ".gz" else "")

/-- Modelled from the spec: the file-level discipline of
`backup(includeData, compress)` (spec section 4.3; the backup script is
not under `src/`).  The dump output is streamed to a temporary path; only
on success is it renamed to the final artifact path, and on failure the
truncated temporary file is discarded and `BackupErr` is returned. -/
def backupFiles (includeData compress : Bool) (ts : Nat) (dump : DumpOutcome)
    (fs : FS) : BackupFsResult :=
  let final := artifactPath ts includeData compress
  let tmp := final ++ ".tmp"
  match dump with
  | .complete content =>
      { fs := fsRename (fsWrite fs tmp content) tmp final, result := .ok final }
  | .failed truncated =>
      { fs := fsRemove (fsWrite fs tmp truncated) tmp, result := .error .dumpFailed }

/-! ## Dump/Restore Manager, dump semantics (spec-modelled) -/

/-- A backup artifact name as a structured value: the filename encodes the
generation timestamp, the data-inclusion flag and the compression flag
(so the extension is determined by `compressed`). -/
structure ArtifactName where
  ts : Nat
  hasData : Bool
  compressed : Bool
deriving DecidableEq

/-- A portable dump: the serialized row data (empty for a schema-only
dump) and whether the bytes are compressed. -/
structure Dump where
  rows : List (String × Nat)
  compressed : Bool
deriving DecidableEq

/-- A store of dump artifacts by structured name, most recent first. -/
def DumpFS : Type := List (ArtifactName × Dump)

/-- Content of an artifact, if present. -/
def dumpLookup (fs : DumpFS) (n : ArtifactName) : Option Dump :=
  (List.find? (fun e => decide (e.1 = n)) fs).map (fun e => e.2)

/-- Modelled from the spec: a successful `backup(includeData, compress)`
serializes the store's rows (schema only when `includeData` is false) into
an artifact whose name encodes the timestamp and both flags, and returns
the artifact name. -/
def backupRun (st : Store) (includeData compress : Bool) (ts : Nat)
    (fs : DumpFS) : DumpFS × ArtifactName :=
  let n : ArtifactName := ⟨ts, includeData, compress⟩
  let d : Dump := ⟨if includeData then st.rowCounts else [], compress⟩
  ((n, d) :: fs, n)

/-- Failure of the restore operation. -/
inductive RestoreErr where
  | notFound
  | compressionMismatch
deriving DecidableEq

/-- Modelled from the spec: `restore(artifact)` (spec section 4.3)
validates that the artifact exists and that its compression flag matches
the extension encoded in its name before handing it to the restore
utility, which replaces the store's rows with the dump's rows. -/
def restoreRun (n : ArtifactName) (fs : DumpFS) (st : Store) : Except RestoreErr Store :=
  match dumpLookup fs n with
  | none => .error .notFound
  | some d =>
      if d.compressed = n.compressed then
        .ok { currentRev := st.currentRev, rowCounts := d.rows }
      else
        .error .compressionMismatch

/-! ## Migration chain (spec-modelled)

A revision is an identifier plus a parent reference; the engine stores the
set of revisions unordered, and `history` reconstructs the root-to-head
order by walking child links from the root. -/

/-- A stored revision: identifier and parent-revision reference (`none`
for the root). -/
abbrev Revision : Type := Nat × Option Nat

/-- The revision pairs of a chain listed in a given root-to-head order:
the first revision has no parent and each subsequent revision's parent is
the preceding element.  The accumulator carries the parent reference for
the next element. -/
def chainPairs (par : Option Nat) : List Nat → List Revision
  | [] => []
  | x :: xs => (x, par) :: chainPairs (some x) xs

/-- Modelled from the spec: the chain invariant of spec section 3 — the
revisions form a singly-linked, strictly ordered chain whose root-to-head
enumeration is `order`: the enumeration is non-empty and duplicate-free,
every stored revision is a link of it, and every enumerated identifier is
stored. -/
def ChainInv (order : List Nat) (revs : List Revision) : Prop :=
  order ≠ [] ∧ order.Nodup ∧
    (∀ p ∈ revs, p ∈ chainPairs none order) ∧
    (∀ x ∈ order, ∃ p ∈ revs, p.1 = x)

instance (order : List Nat) (revs : List Revision) : Decidable (ChainInv order revs) := by
  unfold ChainInv
  infer_instance

/-- The unique child of revision `c`, if any: the stored revision whose
parent reference is `c`. -/
def childOf (revs : List Revision) (c : Nat) : Option Nat :=
  (List.find? (fun r => decide (r.2 = some c)) revs).map (fun r => r.1)

/-- Walks the chain from a revision by repeatedly following child links;
fuel bounds the traversal. -/
def walk (revs : List Revision) : Nat → Nat → List Nat
  | 0, _ => []
  | fuel + 1, c =>
      c :: (match childOf revs c with
            | none => []
            | some n => walk revs fuel n)

/-- The root revision, if any: the stored revision with no parent. -/
def findRoot (revs : List Revision) : Option Nat :=
  (List.find? (fun r => decide (r.2 = none)) revs).map (fun r => r.1)

/-- Modelled from the spec: `history()` of the Migration Coordinator
(spec section 4.2) — the revisions in root-to-head order, reconstructed by
walking child links starting at the root. -/
def history (revs : List Revision) : List Nat :=
  match findRoot revs with
  | none => []
  | some r => walk revs revs.length r

/-! ## Migration Coordinator: upgrade and newRevision (spec-modelled)

For `upgrade` the coordinator is a dumb sequencer over the opaque ordered
chain supplied by the engine, so the chain is taken as its root-to-head
list of identifiers. -/

/-- The deltas still to apply: the portion of the chain strictly after the
current revision (the whole chain when the store is uninitialized). -/
def pendingDeltas (chain : List Nat) (cur : Option Nat) : List Nat :=
  match cur with
  | none => chain
  | some c => (List.dropWhile (fun x => decide (x ≠ c)) chain).drop 1

/-- Result of an upgrade: the deltas applied in order, the revision the
engine reached (the last successfully applied revision on failure, for
the operator's error report), and whether every delta applied. -/
structure UpgradeResult where
  applied : List Nat
  newCurrent : Option Nat
  ok : Bool
deriving DecidableEq

/-- Applies deltas in order, stopping at the first failure with no
rollback; `f` tells whether applying a given delta succeeds. -/
def applyDeltas (f : Nat → Bool) : Option Nat → List Nat → UpgradeResult
  | cur, [] => ⟨[], cur, true⟩
  | cur, d :: ds =>
      if f d then
        let r := applyDeltas f (some d) ds
        ⟨d :: r.applied, r.newCurrent, r.ok⟩
      else ⟨[], cur, false⟩

/-- Modelled from the spec: `upgrade()` of spec section 4.2 — applies all
pending deltas in chain order from current to head, failing partway with
no partial rollback. -/
def upgrade (chain : List Nat) (cur : Option Nat) (f : Nat → Bool) : UpgradeResult :=
  applyDeltas f cur (pendingDeltas chain cur)

/-- Failure of a Migration Coordinator request. -/
inductive MigrationReject where
  | validationError
deriving DecidableEq

/-- The head revision of a stored chain: the last element of its
root-to-head order. -/
def headOf (revs : List Revision) : Option Nat :=
  (history revs).getLast?

/-- Modelled from the spec: `newRevision(message)` of spec section 4.2 —
fails with `ValidationError` on an empty message, performing no side
effects; otherwise generates a new empty delta node parented at head and
returns the updated revision set with the new identifier. -/
def newRevision (msg : String) (revs : List Revision) (newId : Nat) :
    Except MigrationReject (List Revision × Nat) :=
  if msg = "" then .error .validationError
  else .ok (revs ++ [(newId, headOf revs)], newId)

/-- Exit code of `manage.py migrate revision -m msg`: non-zero exactly
when `newRevision` rejects the request. -/
def migrateRevisionExit (msg : String) (revs : List Revision) (newId : Nat) : Nat :=
  match newRevision msg revs newId with
  | .ok _ => 0
  | .error _ => 1

/-- Exit code of `make migration MSG=msg` (src/Makefile lines 65-71
combined with the management-script exit): the shell guard exits 1 on an
empty message before the management script runs. -/
def makeMigrationExit (msg : String) (revs : List Revision) (newId : Nat) : Nat :=
  (migrationTarget msg (migrateRevisionExit msg revs newId)).2

/-! ## Seed Orchestrator (spec-modelled) -/

/-- The closed tagged-variant scenario set of spec section 9. -/
inductive Scenario where
  | basic
  | complete
deriving DecidableEq

/-- Generator steps of the seed scenarios, in dependency order:
organizational units before positions before users, extended
organizational depth (when requested) before position/user seeding, and
the complete scenario's additional dataset last. -/
inductive SeedStep where
  | orgUnits
  | extendedOrgDepth
  | positions
  | users
  | fullDataset
deriving DecidableEq

/-- Failure of the seed operation. -/
inductive SeedErr where
  | unknownScenario
deriving DecidableEq

/-- Modelled from the spec: resolution of a scenario identifier against
the known scenario set {Basic, Complete} (spec sections 4.4, 9); the
repository's command surface spells the identifiers `basico` and
`completo` (src/Makefile, command guide). -/
def resolveScenario : String → Option Scenario
  | "basico" => some .basic
  | "completo" => some .complete
  | _ => none

/-- Modelled from the spec: the fixed declared generator-step order of
each scenario (spec section 4.4), with extended organizational depth
generated before position/user seeding when requested. -/
def scenarioSteps : Scenario → Bool → List SeedStep
  | .basic, ext =>
      (if ext then [.orgUnits, .extendedOrgDepth] else [.orgUnits]) ++ [.positions, .users]
  | .complete, ext =>
      (if ext then [.orgUnits, .extendedOrgDepth] else [.orgUnits])
        ++ [.positions, .users, .fullDataset]

/-- Modelled from the spec: `seed(scenario, extendedOrg)` of spec section
4.4 — an unrecognized identifier fails with
`ValidationError(UnknownScenario)` before invoking any generator step;
a recognized one runs its scenario's steps in the fixed declared order.
Returns the steps invoked together with the result. -/
def seedRun (scenario : String) (extendedOrg : Bool) :
    List SeedStep × Except SeedErr Unit :=
  match resolveScenario scenario with
  | none => ([], .error .unknownScenario)
  | some sc => (scenarioSteps sc extendedOrg, .ok ())

/-- Whether `a` occurs before the first occurrence of `b` in `l`. -/
def stepBefore (a b : SeedStep) (l : List SeedStep) : Bool :=
  (List.takeWhile (fun x => decide (x ≠ b)) l).any (fun x => decide (x = a))

/-- The management-script argument vector of a command, if it is one. -/
def getManage : Cmd → Option (List String)
  | .manage args => some args
  | _ => none

/-- Whether a command requests operator confirmation: by the Reset Guard
model, only `reset-db` without the `--force` flag prompts. -/
def promptsConfirmation : Cmd → Bool
  | .manage args => args.contains "reset-db" && !(args.contains "--force")
  | _ => false

/-! ## Filesystem lemmas -/

theorem fsLookup_write_self (fs : FS) (p : String) (c : List Nat) :
    fsLookup (fsWrite fs p c) p = some c := by
  simp [fsLookup, fsWrite]

theorem fsLookup_write_ne (fs : FS) (p q : String) (c : List Nat) (h : p ≠ q) :
    fsLookup (fsWrite fs p c) q = fsLookup fs q := by
  simp [fsLookup, fsWrite, List.find?_cons_of_neg, h]

theorem fsLookup_remove_self (fs : FS) (p : String) :
    fsLookup (fsRemove fs p) p = none := by
  have : List.find? (fun e => decide (e.1 = p)) (fsRemove fs p) = none := by
    rw [List.find?_eq_none]
    intro e he
    simp only [fsRemove, List.mem_filter, decide_eq_true_eq] at he
    simp [he.2]
  simp [fsLookup, this]

theorem fsLookup_remove_ne (fs : FS) (p q : String) (h : p ≠ q) :
    fsLookup (fsRemove fs p) q = fsLookup fs q := by
  induction fs with
  | nil => rfl
  | cons a t ih =>
      by_cases ha : a.1 = p
      · have hq : ¬(a.1 = q) := fun hh => h (by rw [← ha, hh])
        have hstep : fsRemove (a :: t) p = fsRemove t p := by
          simp [fsRemove, List.filter_cons, ha]
        rw [hstep, ih]
        unfold fsLookup
        rw [List.find?_cons_of_neg _ (by simpa using hq)]
      · have hstep : fsRemove (a :: t) p = a :: fsRemove t p := by
          simp [fsRemove, List.filter_cons, ha]
        rw [hstep]
        by_cases hq : a.1 = q
        · unfold fsLookup
          rw [List.find?_cons_of_pos _ (by simpa using hq),
            List.find?_cons_of_pos _ (by simpa using hq)]
        · unfold fsLookup
          rw [List.find?_cons_of_neg _ (by simpa using hq),
            List.find?_cons_of_neg _ (by simpa using hq)]
          exact ih

theorem append_tmp_ne (s : String) : s ++ ".tmp" ≠ s := by
  intro h
  have hlen := congrArg String.length h
  rw [String.length_append] at hlen
  have h4 : ".tmp".length = 4 := rfl
  rw [h4] at hlen
  omega

/-! ## Claim theorems -/

/-- Claim C2: a reset invocation without the force flag whose confirmation
is denied (any non-affirmative response, including no response) ends in
the Aborted state, performs no destructive action, leaves the store's
current revision and row counts unchanged, and exits with code 0. -/
theorem reset_denied_is_clean_noop (reinit : Bool) (resp : Option Bool)
    (wipeOk : Bool) (headRev : Nat) (seedCounts : List (String × Nat))
    (st : Store) (h : resp ≠ some true) :
    (resetRun false reinit resp wipeOk headRev seedCounts st).trace =
      [.idle, .awaitingConfirmation, .aborted] ∧
    (resetRun false reinit resp wipeOk headRev seedCounts st).actions.all
      (fun pr => decide (pr.2 ≠ ResetAction.dropStructural)) = true ∧
    (resetRun false reinit resp wipeOk headRev seedCounts st).finalStore = st ∧
    (resetRun false reinit resp wipeOk headRev seedCounts st).finalStore.currentRev =
      st.currentRev ∧
    (resetRun false reinit resp wipeOk headRev seedCounts st).finalStore.rowCounts =
      st.rowCounts ∧
    (resetRun false reinit resp wipeOk headRev seedCounts st).exitCode = 0 := by
  have hd : confirmationSource false resp = .denied := by
    simp [confirmationSource, h]
  simp [resetRun, hd]

theorem reset_denied_is_clean_noop_witness :
    (resetRun false false none true 7 [("usuarios", 3)] ⟨some 5, [("usuarios", 3)]⟩).trace =
      [.idle, .awaitingConfirmation, .aborted] ∧
    (resetRun false false none true 7 [("usuarios", 3)] ⟨some 5, [("usuarios", 3)]⟩).finalStore =
      ⟨some 5, [("usuarios", 3)]⟩ ∧
    (resetRun false false none true 7 [("usuarios", 3)] ⟨some 5, [("usuarios", 3)]⟩).exitCode = 0 := by
  have h := reset_denied_is_clean_noop false none true 7 [("usuarios", 3)]
    ⟨some 5, [("usuarios", 3)]⟩ (by decide)
  exact ⟨h.1, h.2.2.1, h.2.2.2.2.2⟩

/-- Claim C3: the status operation never raises and always exits 0; an
unreachable store yields `connected = false` with all other fields empty,
and in detailed mode each failed row-count query degrades only its own
field to "unavailable" (`none`). -/
theorem status_never_raises (detailed : Bool) (s : StoreProbe) :
    (∃ r, report detailed s = .ok r) ∧
    (s.reachable = false → report detailed s = .ok emptyReport) ∧
    (∀ n e, s.reachable = true → detailed = true →
      (n, Except.error e) ∈ s.countQs →
      ∃ r, report detailed s = .ok r ∧ (n, (none : Option Nat)) ∈ r.rowCounts) ∧
    statusExit detailed s = 0 := by
  refine ⟨?_, ?_, ?_, ?_⟩
  · cases hr : s.reachable <;> simp [report, hr]
  · intro hr; simp [report, hr]
  · intro n e hr hd hmem
    refine ⟨{ connected := true, currentRev := (degrade s.currentRevQ).join,
              headRev := degrade s.headRevQ, pendingCount := degrade s.pendingQ,
              rowCounts := List.map (fun p => (p.1, degrade p.2)) s.countQs }, ?_, ?_⟩
    · simp [report, hr, hd]
    · exact List.mem_map.mpr ⟨(n, Except.error e), hmem, rfl⟩
  · cases hr : s.reachable <;> simp [statusExit, report, hr]

theorem status_never_raises_witness :
    (∃ r, report true ⟨true, .ok (some "abc"), .ok "abc", .ok 0,
      [("usuarios", .error .queryFailed)]⟩ = .ok r ∧
      ("usuarios", (none : Option Nat)) ∈ r.rowCounts) ∧
    statusExit true ⟨false, .ok none, .ok "abc", .ok 0, []⟩ = 0 ∧
    report false ⟨false, .ok none, .ok "abc", .ok 0, []⟩ = .ok emptyReport := by
  refine ⟨?_, ?_, ?_⟩
  · exact (status_never_raises true _).2.2.1 "usuarios" .queryFailed rfl rfl
      (by simp)
  · exact (status_never_raises true _).2.2.2
  · exact (status_never_raises false _).2.1 rfl

/-- Claim C4: when the dump fails, backup returns `BackupError` and never
leaves a partial or truncated file at the expected final artifact path —
the content at the final path is exactly what was there before, and the
temporary file is discarded; only a successful dump places (complete)
content at the final path. -/
theorem backup_never_leaves_truncated_artifact (includeData compress : Bool)
    (ts : Nat) (fs : FS) (truncated content : List Nat) :
    ((backupFiles includeData compress ts (.failed truncated) fs).result =
        .error .dumpFailed ∧
      fsLookup (backupFiles includeData compress ts (.failed truncated) fs).fs
          (artifactPath ts includeData compress) =
        fsLookup fs (artifactPath ts includeData compress) ∧
      fsLookup (backupFiles includeData compress ts (.failed truncated) fs).fs
          (artifactPath ts includeData compress ++ ".tmp") = none) ∧
    ((backupFiles includeData compress ts (.complete content) fs).result =
        .ok (artifactPath ts includeData compress) ∧
      fsLookup (backupFiles includeData compress ts (.complete content) fs).fs
          (artifactPath ts includeData compress) = some content) := by
  have hne := append_tmp_ne (artifactPath ts includeData compress)
  refine ⟨⟨rfl, ?_, ?_⟩, rfl, ?_⟩
  · show fsLookup (fsRemove (fsWrite fs _ _) _) _ = _
    rw [fsLookup_remove_ne _ _ _ hne, fsLookup_write_ne _ _ _ _ hne]
  · exact fsLookup_remove_self _ _
  · show fsLookup (fsRename (fsWrite fs _ _) _ _) _ = _
    rw [fsRename, fsLookup_write_self]
    exact fsLookup_write_self _ _ _

/-- Claim C7: a compressed backup of a store followed immediately by a
restore of the produced artifact succeeds (the generated name's extension
matches its compression flag) and yields a store with the same row counts. -/
theorem backup_restore_round_trip (st : Store) (ts : Nat) (fs : DumpFS) :
    restoreRun (backupRun st true true ts fs).2 (backupRun st true true ts fs).1 st =
      .ok st ∧
    ∀ st', restoreRun (backupRun st true true ts fs).2 (backupRun st true true ts fs).1 st =
      .ok st' → st'.rowCounts = st.rowCounts := by
  constructor
  · simp [backupRun, restoreRun, dumpLookup]
  · intro st' h
    simp [backupRun, restoreRun, dumpLookup] at h
    rw [← h]

theorem backup_restore_round_trip_witness :
    restoreRun (backupRun ⟨some 3, [("usuarios", 2), ("puestos", 5)]⟩ true true 20250101 []).2
        (backupRun ⟨some 3, [("usuarios", 2), ("puestos", 5)]⟩ true true 20250101 []).1
        ⟨some 3, [("usuarios", 2), ("puestos", 5)]⟩ =
      .ok ⟨some 3, [("usuarios", 2), ("puestos", 5)]⟩ ∧
    (Store.mk (some 3) [("usuarios", 2), ("puestos", 5)]).rowCounts =
      [("usuarios", 2), ("puestos", 5)] := by
  have h := backup_restore_round_trip ⟨some 3, [("usuarios", 2), ("puestos", 5)]⟩ 20250101 []
  exact ⟨h.1, h.2 _ h.1⟩

/-- Claim C1: in every run of the Reset Guard, the destructive structural
drop is performed only in the Wiping state, and whenever Wiping is reached
the trace passed through Confirmed and the run's single confirmation
source (force flag, else affirmative interactive response) is not a
denial; hence no run performs a destructive action without a valid
confirmation. -/
theorem reset_guard_confirmation_gate (force reinit : Bool) (resp : Option Bool)
    (wipeOk : Bool) (headRev : Nat) (seedCounts : List (String × Nat)) (st : Store) :
    (ResetState.wiping ∈ (resetRun force reinit resp wipeOk headRev seedCounts st).trace →
      ResetState.confirmed ∈ (resetRun force reinit resp wipeOk headRev seedCounts st).trace ∧
      confirmationSource force resp ≠ .denied) ∧
    (resetRun force reinit resp wipeOk headRev seedCounts st).actions.all
      (fun pr => decide (pr.2 = ResetAction.dropStructural → pr.1 = ResetState.wiping)) =
      true ∧
    ((ResetAction.dropStructural ∈
        (resetRun force reinit resp wipeOk headRev seedCounts st).actions.map Prod.snd) →
      ResetState.wiping ∈ (resetRun force reinit resp wipeOk headRev seedCounts st).trace) := by
  by_cases hd : confirmationSource force resp = .denied
  · simp [resetRun, hd]
  · cases force <;> cases wipeOk <;> cases reinit <;> simp [resetRun, hd]

theorem reset_guard_confirmation_gate_witness :
    ResetState.confirmed ∈ (resetRun true false none true 7 [] ⟨none, []⟩).trace ∧
    confirmationSource true none ≠ .denied ∧
    (resetRun true false none true 7 [] ⟨none, []⟩).actions.all
      (fun pr => decide (pr.2 = ResetAction.dropStructural → pr.1 = ResetState.wiping)) =
      true ∧
    ResetState.wiping ∈ (resetRun true false none true 7 [] ⟨none, []⟩).trace := by
  have h := reset_guard_confirmation_gate true false none true 7 [] ⟨none, []⟩
  have hw := h.1 (by decide)
  exact ⟨hw.1, hw.2, h.2.1, h.2.2 (by decide)⟩

/-- Claim C8: `newRevision(message)` fails with `ValidationError` if and
only if the message is empty, with no side effects in that case; a
non-empty message appends a new empty delta node parented at head; and
the `make migration` command (src/Makefile lines 65-71) exits non-zero
exactly when the message is missing. -/
theorem new_revision_validation (msg : String) (revs : List Revision) (newId : Nat) :
    ((∃ e, newRevision msg revs newId = .error e) ↔ msg = "") ∧
    (msg ≠ "" →
      newRevision msg revs newId = .ok (revs ++ [(newId, headOf revs)], newId)) ∧
    (makeMigrationExit msg revs newId ≠ 0 ↔ msg = "") := by
  by_cases h : msg = "" <;>
    simp [newRevision, makeMigrationExit, migrationTarget, migrateRevisionExit, h]
  exact ⟨.validationError, trivial⟩

theorem new_revision_validation_witness :
    newRevision "agregar campo" [(4, none)] 9 = .ok ([(4, none), (9, some 4)], 9) ∧
    (∃ e, newRevision "" [(4, none)] 9 = .error e) ∧
    makeMigrationExit "" [(4, none)] 9 ≠ 0 ∧
    ¬ makeMigrationExit "agregar campo" [(4, none)] 9 ≠ 0 := by
  refine ⟨?_, ?_, ?_, ?_⟩
  · have h := (new_revision_validation "agregar campo" [(4, none)] 9).2.1 (by decide)
    rw [h]
    rfl
  · exact (new_revision_validation "" [(4, none)] 9).1.mpr rfl
  · exact (new_revision_validation "" [(4, none)] 9).2.2.mpr rfl
  · intro hc
    exact absurd ((new_revision_validation "agregar campo" [(4, none)] 9).2.2.mp hc)
      (by decide)

/-- Claim C9: a scenario identifier outside the closed tagged scenario set
{Basic, Complete} fails with `ValidationError(UnknownScenario)` before any
generator step is invoked; a recognized scenario runs exactly its declared
steps, with organizational units before positions before users and, when
the extended-organization modifier is set, extended organizational depth
before position/user seeding. -/
theorem seed_scenario_gate (s : String) (ext : Bool) :
    (resolveScenario s = none →
      seedRun s ext = ([], .error .unknownScenario)) ∧
    (∀ sc, resolveScenario s = some sc →
      seedRun s ext = (scenarioSteps sc ext, .ok ()) ∧
      stepBefore .orgUnits .positions (scenarioSteps sc ext) = true ∧
      stepBefore .positions .users (scenarioSteps sc ext) = true ∧
      (ext = true →
        stepBefore .extendedOrgDepth .positions (scenarioSteps sc ext) = true)) := by
  constructor
  · intro h; simp [seedRun, h]
  · intro sc h
    refine ⟨by simp [seedRun, h], ?_, ?_, ?_⟩ <;> cases sc <;> cases ext <;> decide

theorem seed_scenario_gate_witness :
    seedRun "foo" true = ([], .error .unknownScenario) ∧
    seedRun "basico" true = ([.orgUnits, .extendedOrgDepth, .positions, .users], .ok ()) ∧
    stepBefore .extendedOrgDepth .positions (scenarioSteps .basic true) = true ∧
    seedRun "completo" false =
      ([.orgUnits, .positions, .users, .fullDataset], .ok ()) := by
  refine ⟨(seed_scenario_gate "foo" true).1 rfl, ?_, ?_, ?_⟩
  · exact ((seed_scenario_gate "basico" true).2 .basic rfl).1
  · exact ((seed_scenario_gate "basico" true).2 .basic rfl).2.2.2 rfl
  · exact ((seed_scenario_gate "completo" false).2 .complete rfl).1

/-- Claim C10: the Makefile target `quick-reset` expands (under serial
make) to the `reset-force`, `init` and `seed` recipes in that fixed order,
whose management-script invocations are the forced destructive reset
(`reset-db --force`), database initialization (`init-db`) and the basic
seed scenario, and no command in the chain requests operator confirmation;
moreover a forced Reset Guard run never prompts and always performs the
destructive drop. -/
theorem quick_reset_unattended :
    expandTarget 2 "quick-reset" =
      targetRecipe "reset-force" ++ targetRecipe "init" ++ targetRecipe "seed" ++
        [Cmd.echo "Reset rapido completado"] ∧
    (expandTarget 2 "quick-reset").filterMap getManage =
      [["reset-db", "--force"], ["init-db"], ["seed-data", "--scenario", "basico"]] ∧
    (expandTarget 2 "quick-reset").all (fun c => !promptsConfirmation c) = true ∧
    ∀ reinit resp wipeOk headRev seedCounts st,
      (resetRun true reinit resp wipeOk headRev seedCounts st).actions.all
        (fun pr => decide (pr.2 ≠ ResetAction.promptOperator)) = true ∧
      (ResetState.wiping, ResetAction.dropStructural) ∈
        (resetRun true reinit resp wipeOk headRev seedCounts st).actions := by
  refine ⟨by decide, by decide, by decide, ?_⟩
  intro reinit resp wipeOk headRev seedCounts st
  have hd : confirmationSource true resp ≠ .denied := by simp [confirmationSource]
  cases wipeOk <;> cases reinit <;> simp [resetRun, hd]

/-! ## Upgrade idempotence lemmas -/

theorem applyDeltas_ok (f : Nat → Bool) (ds : List Nat) : ∀ (cur : Option Nat),
    (applyDeltas f cur ds).ok = true →
    (applyDeltas f cur ds).applied = ds ∧
    (applyDeltas f cur ds).newCurrent =
      (match ds.getLast? with | none => cur | some d => some d) := by
  induction ds with
  | nil => intro cur _; exact ⟨rfl, rfl⟩
  | cons d ds ih =>
      intro cur h
      by_cases hf : f d = true
      · simp only [applyDeltas, hf, if_true] at h ⊢
        obtain ⟨ha, hc⟩ := ih (some d) h
        refine ⟨by rw [ha], ?_⟩
        rw [hc]
        cases hgl : ds.getLast? with
        | none =>
            have hnil : ds = [] := List.getLast?_eq_none_iff.mp hgl
            subst hnil
            rfl
        | some x =>
            obtain ⟨ys, hys⟩ := List.getLast?_eq_some_iff.mp hgl
            subst hys
            rw [show d :: (ys ++ [x]) = (d :: ys) ++ [x] from rfl, List.getLast?_concat]
      · simp [applyDeltas, hf] at h

theorem pendingDeltas_suffix (chain : List Nat) (cur : Option Nat) :
    pendingDeltas chain cur <:+ chain := by
  cases cur with
  | none => exact List.suffix_refl chain
  | some c => exact (List.drop_suffix 1 _).trans (List.dropWhile_suffix _)

theorem suffix_getLast? {l₁ l₂ : List Nat} (h : l₁ <:+ l₂) (hne : l₁ ≠ []) :
    l₂.getLast? = l₁.getLast? := by
  obtain ⟨t, rfl⟩ := h
  rw [List.getLast?_append]
  cases hgl : l₁.getLast? with
  | none => exact absurd (List.getLast?_eq_none_iff.mp hgl) hne
  | some x => rfl

theorem pendingDeltas_getLast (chain : List Nat) (x : Nat) (hn : chain.Nodup)
    (h : chain.getLast? = some x) : pendingDeltas chain (some x) = [] := by
  induction chain with
  | nil => simp at h
  | cons a t ih =>
      rcases t with _ | ⟨b, t'⟩
      · simp only [List.getLast?_singleton, Option.some_inj] at h
        subst h
        simp [pendingDeltas]
      · rw [List.getLast?_cons_cons] at h
        have hx : x ∈ b :: t' := List.mem_of_getLast?_eq_some h
        have ha : a ≠ x := by
          intro he
          exact (List.nodup_cons.mp hn).1 (he ▸ hx)
        have ihr := ih (List.nodup_cons.mp hn).2 h
        simp only [pendingDeltas] at ihr ⊢
        rw [List.dropWhile_cons_of_pos (by simpa using ha)]
        exact ihr

/-- Claim C6: calling `upgrade()` twice in succession is idempotent — a
first call that succeeds applies exactly the pending deltas in chain
order, and the second call has zero pending deltas, applies nothing and
leaves the current revision unchanged. -/
theorem upgrade_idempotent (chain : List Nat) (cur : Option Nat) (f : Nat → Bool)
    (hn : chain.Nodup) (hok : (upgrade chain cur f).ok = true) :
    (upgrade chain cur f).applied = pendingDeltas chain cur ∧
    pendingDeltas chain (upgrade chain cur f).newCurrent = [] ∧
    upgrade chain (upgrade chain cur f).newCurrent f =
      ⟨[], (upgrade chain cur f).newCurrent, true⟩ := by
  obtain ⟨ha, hc⟩ := applyDeltas_ok f (pendingDeltas chain cur) cur hok
  have hu : upgrade chain cur f = applyDeltas f cur (pendingDeltas chain cur) := rfl
  cases hgl : (pendingDeltas chain cur).getLast? with
  | none =>
      have hnil : pendingDeltas chain cur = [] := List.getLast?_eq_none_iff.mp hgl
      have hcur : (upgrade chain cur f).newCurrent = cur := by rw [hu, hc, hgl]
      refine ⟨ha, ?_, ?_⟩
      · rw [hcur, ← hnil]
      · rw [hcur]
        show applyDeltas f cur (pendingDeltas chain cur) = _
        rw [hnil]
        rfl
  | some x =>
      have hcur : (upgrade chain cur f).newCurrent = some x := by rw [hu, hc, hgl]
      have hne : pendingDeltas chain cur ≠ [] := by
        intro he
        rw [he] at hgl
        exact Option.noConfusion hgl
      have hchl : chain.getLast? = some x := by
        rw [suffix_getLast? (pendingDeltas_suffix chain cur) hne]
        exact hgl
      have hemp : pendingDeltas chain (some x) = [] := pendingDeltas_getLast chain x hn hchl
      refine ⟨ha, ?_, ?_⟩
      · rw [hcur]
        exact hemp
      · rw [hcur]
        show applyDeltas f (some x) (pendingDeltas chain (some x)) = _
        rw [hemp]
        rfl

theorem upgrade_idempotent_witness :
    [1, 2, 3].Nodup ∧
    (upgrade [1, 2, 3] none (fun _ => true)).ok = true ∧
    (upgrade [1, 2, 3] none (fun _ => true)).applied = pendingDeltas [1, 2, 3] none ∧
    pendingDeltas [1, 2, 3] (upgrade [1, 2, 3] none (fun _ => true)).newCurrent = [] ∧
    upgrade [1, 2, 3] (upgrade [1, 2, 3] none (fun _ => true)).newCurrent (fun _ => true) =
      ⟨[], (upgrade [1, 2, 3] none (fun _ => true)).newCurrent, true⟩ := by
  have h := upgrade_idempotent [1, 2, 3] none (fun _ => true) (by decide) rfl
  exact ⟨by decide, rfl, h.1, h.2.1, h.2.2⟩

/-! ## History reconstruction lemmas -/

theorem mem_chainPairs_fst : ∀ (l : List Nat) (par : Option Nat) (p : Revision),
    p ∈ chainPairs par l → p.1 ∈ l := by
  intro l
  induction l with
  | nil => intro par p h; simp [chainPairs] at h
  | cons x xs ih =>
      intro par p h
      simp only [chainPairs, List.mem_cons] at h
      rcases h with h | h
      · rw [h]; exact List.mem_cons_self _ _
      · exact List.mem_cons_of_mem _ (ih (some x) p h)

theorem chainPairs_fst_inj : ∀ (l : List Nat) (par : Option Nat) (p q : Revision),
    l.Nodup → p ∈ chainPairs par l → q ∈ chainPairs par l → p.1 = q.1 → p = q := by
  intro l
  induction l with
  | nil => intro par p q _ hp _ _; simp [chainPairs] at hp
  | cons x xs ih =>
      intro par p q hn hp hq he
      simp only [chainPairs, List.mem_cons] at hp hq
      rcases hp with hp | hp <;> rcases hq with hq | hq
      · rw [hp, hq]
      · exfalso
        have hq1 : q.1 ∈ xs := mem_chainPairs_fst xs (some x) q hq
        rw [← he, hp] at hq1
        exact (List.nodup_cons.mp hn).1 hq1
      · exfalso
        have hp1 : p.1 ∈ xs := mem_chainPairs_fst xs (some x) p hp
        rw [he, hq] at hp1
        exact (List.nodup_cons.mp hn).1 hp1
      · exact ih (some x) p q (List.nodup_cons.mp hn).2 hp hq he

theorem chainPairs_parent_mem : ∀ (l : List Nat) (a : Nat) (q : Revision),
    q ∈ chainPairs (some a) l → ∃ v, q.2 = some v ∧ (v = a ∨ v ∈ l.dropLast) := by
  intro l
  induction l with
  | nil => intro a q h; simp [chainPairs] at h
  | cons z zs ih =>
      intro a q h
      simp only [chainPairs, List.mem_cons] at h
      rcases h with h | h
      · exact ⟨a, by rw [h], Or.inl rfl⟩
      · obtain ⟨v, hv, hva⟩ := ih z q h
        refine ⟨v, hv, Or.inr ?_⟩
        rcases zs with _ | ⟨b, t⟩
        · simp [chainPairs] at h
        · rcases hva with hva | hva
          · rw [hva]
            exact List.mem_cons_self _ _
          · exact List.mem_cons_of_mem _ hva

theorem chainPairs_parent_none : ∀ (l : List Nat) (q : Revision),
    q ∈ chainPairs none l → q.2 = none ∨ ∃ v, q.2 = some v ∧ v ∈ l.dropLast := by
  intro l q h
  rcases l with _ | ⟨z, zs⟩
  · simp [chainPairs] at h
  · simp only [chainPairs, List.mem_cons] at h
    rcases h with h | h
    · exact Or.inl (by rw [h])
    · obtain ⟨v, hv, hva⟩ := chainPairs_parent_mem zs z q h
      refine Or.inr ⟨v, hv, ?_⟩
      rcases zs with _ | ⟨b, t⟩
      · simp [chainPairs] at h
      · rcases hva with hva | hva
        · rw [hva]
          exact List.mem_cons_self _ _
        · exact List.mem_cons_of_mem _ hva

theorem chainPairs_snd_inj : ∀ (l : List Nat) (par : Option Nat) (p q : Revision),
    l.Nodup → (∀ a, par = some a → a ∉ l) →
    p ∈ chainPairs par l → q ∈ chainPairs par l → p.2 = q.2 → p = q := by
  intro l
  induction l with
  | nil => intro par p q _ _ hp _ _; simp [chainPairs] at hp
  | cons z zs ih =>
      intro par p q hn hpar hp hq he
      simp only [chainPairs, List.mem_cons] at hp hq
      rcases hp with hp | hp <;> rcases hq with hq | hq
      · rw [hp, hq]
      · exfalso
        obtain ⟨v, hv, hva⟩ := chainPairs_parent_mem zs z q hq
        have hpv : par = some v := by rw [← he, hp] at hv; exact hv
        have hnv : v ∉ z :: zs := hpar v hpv
        rcases hva with hva | hva
        · exact hnv (by rw [hva]; exact List.mem_cons_self _ _)
        · exact hnv (List.mem_cons_of_mem _ ((List.dropLast_sublist zs).subset hva))
      · exfalso
        obtain ⟨v, hv, hva⟩ := chainPairs_parent_mem zs z p hp
        have hpv : par = some v := by rw [he, hq] at hv; exact hv
        have hnv : v ∉ z :: zs := hpar v hpv
        rcases hva with hva | hva
        · exact hnv (by rw [hva]; exact List.mem_cons_self _ _)
        · exact hnv (List.mem_cons_of_mem _ ((List.dropLast_sublist zs).subset hva))
      · refine ih (some z) p q (List.nodup_cons.mp hn).2 ?_ hp hq he
        intro a ha
        injection ha with h1
        rw [← h1]
        exact (List.nodup_cons.mp hn).1

theorem chainPairs_child_mem : ∀ (pre : List Nat) (par : Option Nat) (x y : Nat)
    (suf : List Nat), (y, some x) ∈ chainPairs par (pre ++ x :: y :: suf) := by
  intro pre
  induction pre with
  | nil =>
      intro par x y suf
      simp [chainPairs]
  | cons a pre ih =>
      intro par x y suf
      simp only [List.cons_append, chainPairs, List.mem_cons]
      exact Or.inr (ih (some a) x y suf)

theorem find?_eq_some_of_unique {α : Type} (pred : α → Bool) (a : α)
    (hpa : pred a = true) : ∀ (l : List α), a ∈ l →
    (∀ b ∈ l, pred b = true → b = a) → List.find? pred l = some a := by
  intro l
  induction l with
  | nil => intro hmem _; simp at hmem
  | cons c t ih =>
      intro hmem huniq
      by_cases hc : pred c = true
      · rw [List.find?_cons_of_pos _ hc, huniq c (List.mem_cons_self _ _) hc]
      · rw [List.find?_cons_of_neg _ hc]
        rcases List.mem_cons.mp hmem with h | h
        · exact absurd (h ▸ hpa) hc
        · exact ih h (fun b hb hp => huniq b (List.mem_cons_of_mem _ hb) hp)

theorem chainInv_canonical (order : List Nat) (revs : List Revision)
    (hinv : ChainInv order revs) (c : Revision)
    (hc : c ∈ chainPairs none order) (hcord : c.1 ∈ order) : c ∈ revs := by
  obtain ⟨h0, hnd, hsub, hcov⟩ := hinv
  obtain ⟨p, hp, hp1⟩ := hcov c.1 hcord
  have hpc : p = c := chainPairs_fst_inj order none p c hnd (hsub p hp) hc hp1
  rw [← hpc]
  exact hp

theorem childOf_eq_some (order : List Nat) (revs : List Revision)
    (hinv : ChainInv order revs) (pre : List Nat) (x y : Nat) (suf : List Nat)
    (ho : order = pre ++ x :: y :: suf) : childOf revs x = some y := by
  obtain ⟨h0, hnd, hsub, hcov⟩ := hinv
  have hcmem : ((y, some x) : Revision) ∈ chainPairs none order := by
    rw [ho]; exact chainPairs_child_mem pre none x y suf
  have hyord : y ∈ order := by
    rw [ho]
    exact List.mem_append_right _ (List.mem_cons_of_mem _ (List.mem_cons_self _ _))
  have hcrev : ((y, some x) : Revision) ∈ revs :=
    chainInv_canonical order revs ⟨h0, hnd, hsub, hcov⟩ (y, some x) hcmem hyord
  have hfind : List.find? (fun r => decide (r.2 = some x)) revs = some (y, some x) := by
    apply find?_eq_some_of_unique _ _ (by simp) revs hcrev
    intro b hb hp
    have hb2 : b.2 = some x := of_decide_eq_true hp
    exact chainPairs_snd_inj order none b (y, some x) hnd
      (fun a ha => Option.noConfusion ha) (hsub b hb) hcmem (by rw [hb2])
  unfold childOf
  rw [hfind]
  rfl

theorem childOf_eq_none (order : List Nat) (revs : List Revision)
    (hinv : ChainInv order revs) (pre : List Nat) (x : Nat)
    (ho : order = pre ++ [x]) : childOf revs x = none := by
  obtain ⟨h0, hnd, hsub, hcov⟩ := hinv
  have hxpre : x ∉ pre := by
    rw [ho] at hnd
    intro hx
    exact List.disjoint_of_nodup_append hnd hx (List.mem_singleton_self x)
  have hfind : List.find? (fun r => decide (r.2 = some x)) revs = none := by
    rw [List.find?_eq_none]
    intro b hb hp
    have hb2 : b.2 = some x := of_decide_eq_true hp
    rcases chainPairs_parent_none order b (hsub b hb) with h | ⟨v, hv, hvd⟩
    · rw [h] at hb2
      exact Option.noConfusion hb2
    · rw [hv] at hb2
      have hvx : v = x := Option.some.inj hb2
      rw [ho, List.dropLast_concat] at hvd
      exact hxpre (hvx ▸ hvd)
  unfold childOf
  rw [hfind]
  rfl

theorem findRoot_eq (order : List Nat) (revs : List Revision)
    (hinv : ChainInv order revs) (h : Nat) (t : List Nat)
    (ho : order = h :: t) : findRoot revs = some h := by
  obtain ⟨h0, hnd, hsub, hcov⟩ := hinv
  have hcmem : ((h, none) : Revision) ∈ chainPairs none order := by
    rw [ho]; simp [chainPairs]
  have hhord : h ∈ order := by rw [ho]; exact List.mem_cons_self _ _
  have hcrev : ((h, none) : Revision) ∈ revs :=
    chainInv_canonical order revs ⟨h0, hnd, hsub, hcov⟩ (h, none) hcmem hhord
  have hfind : List.find? (fun r => decide (r.2 = none)) revs = some (h, none) := by
    apply find?_eq_some_of_unique _ _ (by simp) revs hcrev
    intro b hb hp
    have hb2 : b.2 = none := of_decide_eq_true hp
    exact chainPairs_snd_inj order none b (h, none) hnd
      (fun a ha => Option.noConfusion ha) (hsub b hb) hcmem (by rw [hb2])
  unfold findRoot
  rw [hfind]
  rfl

theorem walk_eq_suffix (order : List Nat) (revs : List Revision)
    (hinv : ChainInv order revs) : ∀ (suf : List Nat) (fuel x : Nat) (pre : List Nat),
    order = pre ++ x :: suf → suf.length < fuel → walk revs fuel x = x :: suf := by
  intro suf
  induction suf with
  | nil =>
      intro fuel x pre ho hf
      cases fuel with
      | zero => simp at hf
      | succ f =>
          show (x :: match childOf revs x with
                     | none => []
                     | some n => walk revs f n) = [x]
          rw [childOf_eq_none order revs hinv pre x ho]
  | cons y suf' ih =>
      intro fuel x pre ho hf
      cases fuel with
      | zero => simp at hf
      | succ f =>
          show (x :: match childOf revs x with
                     | none => []
                     | some n => walk revs f n) = x :: y :: suf'
          rw [childOf_eq_some order revs hinv pre x y suf' ho]
          show x :: walk revs f y = x :: y :: suf'
          have ho' : order = (pre ++ [x]) ++ y :: suf' := by rw [ho]; simp
          have hf' : suf'.length < f := by
            simp only [List.length_cons] at hf
            omega
          rw [ih f y (pre ++ [x]) ho' hf']

theorem chainInv_length_le (order : List Nat) (revs : List Revision)
    (hinv : ChainInv order revs) : order.length ≤ revs.length := by
  obtain ⟨h0, hnd, hsub, hcov⟩ := hinv
  have hsubset : order ⊆ revs.map Prod.fst := by
    intro x hx
    obtain ⟨p, hp, hp1⟩ := hcov x hx
    exact List.mem_map.mpr ⟨p, hp, hp1⟩
  have hle := (List.subperm_of_subset hnd hsubset).length_le
  simpa using hle

theorem history_eq_of_chainInv (order : List Nat) (revs : List Revision)
    (hinv : ChainInv order revs) : history revs = order := by
  rcases order with _ | ⟨h, t⟩
  · exact absurd rfl hinv.1
  · have hlen := chainInv_length_le (h :: t) revs hinv
    unfold history
    rw [findRoot_eq (h :: t) revs hinv h t rfl]
    exact walk_eq_suffix (h :: t) revs hinv t revs.length h [] rfl (by
      simp only [List.length_cons] at hlen
      omega)

/-- Claim C5: under the chain invariant, `history()` returns exactly the
root-to-head enumeration: no duplicates, every stored revision appears
(no gaps), every stored revision is a link of the returned chain (the
first element has no parent and each subsequent element's parent is the
preceding element), and any parentless (root) revision is the first
element. -/
theorem history_root_to_head (order : List Nat) (revs : List Revision)
    (hinv : ChainInv order revs) :
    history revs = order ∧
    (history revs).Nodup ∧
    (∀ p ∈ revs, p.1 ∈ history revs) ∧
    (∀ p ∈ revs, p ∈ chainPairs none (history revs)) ∧
    (∀ x, ((x, (none : Option Nat)) ∈ revs → (history revs).head? = some x)) := by
  have hh := history_eq_of_chainInv order revs hinv
  obtain ⟨h0, hnd, hsub, hcov⟩ := hinv
  refine ⟨hh, by rw [hh]; exact hnd, ?_, by rw [hh]; exact hsub, ?_⟩
  · intro p hp
    rw [hh]
    exact mem_chainPairs_fst order none p (hsub p hp)
  · intro x hx
    rw [hh]
    rcases order with _ | ⟨h, t⟩
    · exact absurd rfl h0
    · have hmem := hsub (x, none) hx
      have hroot : ((h, none) : Revision) ∈ chainPairs none (h :: t) := by
        simp [chainPairs]
      have heq := chainPairs_snd_inj (h :: t) none (x, none) (h, none) hnd
        (fun a ha => Option.noConfusion ha) hmem hroot rfl
      have hxh : x = h := congrArg Prod.fst heq
      rw [hxh]
      rfl

theorem history_root_to_head_witness :
    ChainInv [1, 2, 3] [(2, some 1), (3, some 2), (1, none)] ∧
    history [(2, some 1), (3, some 2), (1, none)] = [1, 2, 3] ∧
    (history [(2, some 1), (3, some 2), (1, none)]).Nodup ∧
    (history [(2, some 1), (3, some 2), (1, none)]).head? = some 1 := by
  have hinv : ChainInv [1, 2, 3] [(2, some 1), (3, some 2), (1, none)] := by decide
  have h := history_root_to_head [1, 2, 3] [(2, some 1), (3, some 2), (1, none)] hinv
  exact ⟨hinv, h.1, h.2.1, h.2.2.2.2 1 (by decide)⟩

end SgdColca
